import Mathlib

/-!
Shallow embedding of the sum3 search engine (src/src/lib.rs) and proofs about
its specification claims.

Modelling conventions:
* An `f64` value is modelled by `F`: either NaN, or a finite value carried
  exactly as a rational.  Arithmetic on finite values is exact; every
  operation involving NaN yields NaN and every comparison involving NaN is
  false, as for Rust `f64`.  (Negative zero and infinities play no role in
  the claims and are not modelled.)
* The process-global lazily initialised `CACHE` becomes an explicit
  `CombinationCache` value threaded through `find_combinations`.
* The `rayon` parallel fan-out `(start..nums.len()).into_par_iter().for_each`
  is sequentialised as a left-to-right fold over the branch indices, the
  shared `Arc<Mutex<Vec<_>>>` result vector becoming explicitly threaded
  state.  The `start` index into the sorted vector is represented by the
  remaining suffix `nums[start..]`; branch `i` corresponds to splitting that
  suffix at its `i`-th element.
* `stop_flag` is an `AtomicBool` set only by an external actor; within one
  modelled call it is a fixed boolean.
* A Rust panic (from `Option::unwrap` on `None` inside the sort comparator)
  is modelled by the `Except` error channel.
-/

set_option maxRecDepth 4000

namespace Sum3

/-- Model of an `f64` value: NaN or a finite value represented exactly as a
rational number. -/
inductive F where
  | nan : F
  | fin : ℚ → F
deriving DecidableEq, Repr

/-- Rust `f64` addition: NaN propagates, finite addition is modelled exactly. -/
def fadd : F → F → F
  | F.fin a, F.fin b => F.fin (a + b)
  | _, _ => F.nan

/-- Rust `f64` subtraction. -/
def fsub : F → F → F
  | F.fin a, F.fin b => F.fin (a - b)
  | _, _ => F.nan

/-- Rust `f64::abs`. -/
def fabs : F → F
  | F.fin a => F.fin |a|
  | F.nan => F.nan

/-- Rust `f64` comparison `<=`: false whenever either side is NaN. -/
def fle : F → F → Bool
  | F.fin a, F.fin b => decide (a ≤ b)
  | _, _ => false

/-- Rust `path.iter().sum::<f64>()`: left fold of `+` starting at `0.0`. -/
def fsum (l : List F) : F := l.foldl fadd (F.fin 0)

/-- True when the value is NaN. -/
def isNaN : F → Bool
  | F.nan => true
  | F.fin _ => false

/-- True when the list contains a NaN. -/
def hasNaN (l : List F) : Bool := l.any isNaN

/-- Insertion step of the ascending sort of `sorted_numbers`
(src/src/lib.rs line 62). -/
def finsert (x : F) : List F → List F
  | [] => [x]
  | y :: ys => if fle x y then x :: y :: ys else y :: finsert x ys

/-- Ascending sort, modelling `sorted_numbers.sort_by(|a, b| a.partial_cmp(b).unwrap())`
on a NaN-free slice (the NaN case is handled separately in
`find_combinations`, where the comparator panics). -/
def fsort : List F → List F
  | [] => []
  | x :: xs => finsert x (fsort xs)

/-- Round a rational to the nearest integer, ties to even, matching the
rounding performed by Rust `format!` with a fixed precision. -/
def roundHalfEven (q : ℚ) : ℤ :=
  if q - ⌊q⌋ < 1 / 2 then ⌊q⌋
  else if 1 / 2 < q - ⌊q⌋ then ⌊q⌋ + 1
  else if 2 ∣ ⌊q⌋ then ⌊q⌋ else ⌊q⌋ + 1

/-- One component of the cache key: the two-decimal rendering `{:.2}` of an
`f64` as produced by `format!` in `CombinationCache::get`/`put`
(src/src/lib.rs lines 22 and 27).  `none` models the rendering `NaN`; a
finite value is modelled by the integer `round(100 * q)` together with a flag
marking a negative value rounding to zero (rendered `-0.00`, distinct from
`0.00`). -/
def rkey : F → Option (ℤ × Bool)
  | F.nan => none
  | F.fin q => some (roundHalfEven (100 * q), decide (q < 0 ∧ roundHalfEven (100 * q) = 0))

/-- The full cache key built from target and tolerance,
modelling `format!("{:.2}_{:.2}", target, tolerance)`. -/
abbrev CKey := Option (ℤ × Bool) × Option (ℤ × Bool)

/-- Key derivation for the cache. -/
def ckey (target tolerance : F) : CKey := (rkey target, rkey tolerance)

/-- A result set: the `Vec<Vec<f64>>` of accepted paths. -/
abbrev ResultSet := List (List F)

/-- Model of the `CombinationCache` struct: an LRU map from rendered
`(target, tolerance)` keys to result sets.  `entries` is kept in
most-recently-used-first order; `capacity` is the LRU capacity. -/
structure CombinationCache where
  entries : List (CKey × ResultSet)
  capacity : Nat
deriving DecidableEq, Repr

/-- Look a key up in the entry list. -/
def findVal (k : CKey) : List (CKey × ResultSet) → Option ResultSet
  | [] => none
  | e :: es => if e.1 = k then some e.2 else findVal k es

/-- Remove a key from the entry list. -/
def removeKey (k : CKey) (es : List (CKey × ResultSet)) : List (CKey × ResultSet) :=
  es.filter (fun e => decide (e.1 ≠ k))

/-- Model of `CombinationCache::new`: `NonZeroUsize::new(capacity).unwrap()`
panics when the capacity is zero, modelled as `none`. -/
def CombinationCache.new (capacity : Nat) : Option CombinationCache :=
  if capacity = 0 then none else some ⟨[], capacity⟩

/-- Model of `CombinationCache::get`: look up the rendered key; on a hit the
LRU entry is refreshed (moved to the front).  Returns the cached value (if
any) together with the updated cache. -/
def CombinationCache.get (c : CombinationCache) (target tolerance : F) :
    Option ResultSet × CombinationCache :=
  let k := ckey target tolerance
  match findVal k c.entries with
  | none => (none, c)
  | some v => (some v, ⟨(k, v) :: removeKey k c.entries, c.capacity⟩)

/-- Model of `CombinationCache::put`: insert or refresh the rendered key at
the most-recent position, evicting the least recently used entry when the
capacity is exceeded. -/
def CombinationCache.put (c : CombinationCache) (target tolerance : F)
    (results : ResultSet) : CombinationCache :=
  let k := ckey target tolerance
  ⟨((k, results) :: removeKey k c.entries).take c.capacity, c.capacity⟩

/-- Capacity with which the process-global `CACHE` is initialised
(src/src/lib.rs line 43). -/
def CACHE_CAPACITY : Nat := 1000000

/-- Initial state of the lazily initialised global `CACHE`. -/
def CACHE0 : CombinationCache := ⟨[], CACHE_CAPACITY⟩

/-- Rust panic raised inside `find_combinations`; the only one reachable from
the claims is `Option::unwrap` on `None`, raised by the sort comparator
`|a, b| a.partial_cmp(b).unwrap()` when a NaN is compared. -/
inductive SearchPanic where
  | unwrapNone : SearchPanic
deriving DecidableEq, Repr

/-- Dead helper `max_remaining_sum` (src/src/lib.rs lines 66-68).  It is
defined in the source but never called by `optimized_backtrack`. -/
def max_remaining_sum (nums : List F) (start : Nat) : F := fsum (nums.drop start)

/-- Acceptance test of `optimized_backtrack` (src/src/lib.rs lines 88-91):
`diff <= tolerance && !path.is_empty()`. -/
def acceptedB (target tolerance : F) (path : List F) : Bool :=
  fle (fabs (fsub (fsum path) target)) tolerance && !path.isEmpty

mutual
/-- Model of `optimized_backtrack` (src/src/lib.rs lines 71-118), the
recursive search node.  `rest` is the suffix `nums[start..]` of the sorted
input; `path` and `results` are the current path and the shared result
vector.  Mirrors the source line by line: stop-flag check; acceptance check
with capped push and early return; cap/stop check; parallel branch fan-out
(sequentialised by `backtrack_branches`). -/
def optimized_backtrack (target tolerance : F) (max_results max_length : Nat)
    (stop_flag : Bool) (rest path : List F) (results : ResultSet) : ResultSet :=
  if stop_flag then results
  else if acceptedB target tolerance path then
    (if results.length < max_results then results ++ [path] else results)
  else if max_results ≤ results.length || stop_flag then results
  else backtrack_branches target tolerance max_results max_length stop_flag rest path results
termination_by (rest.length, 1)

/-- Sequentialisation of the branch loop
`(start..nums.len()).into_par_iter().for_each(...)` (src/src/lib.rs lines
106-117): for each branch element `x` of the remaining suffix, check the stop
flag, clone the path, push `x` and recurse; the shared result vector is
threaded left to right. -/
def backtrack_branches (target tolerance : F) (max_results max_length : Nat)
    (stop_flag : Bool) (rest path : List F) (results : ResultSet) : ResultSet :=
  match rest with
  | [] => results
  | x :: rs =>
      backtrack_branches target tolerance max_results max_length stop_flag rs path
        (if stop_flag then results
         else optimized_backtrack target tolerance max_results max_length stop_flag rs
           (path ++ [x]) results)
termination_by (rest.length, 0)
end

/-- Model of `find_combinations` (src/src/lib.rs lines 33-133).  The global
`CACHE` is threaded explicitly; the function returns the result set together
with the cache state after the call, or the panic raised while sorting a
NaN-containing input (on a slice of length at least two the stable sort
always invokes the comparator on the NaN, and
`a.partial_cmp(b).unwrap()` then panics; a shorter slice performs no
comparisons).  `progress_tx` models whether a progress sender was supplied;
the source never uses it. -/
def find_combinations (cache : CombinationCache) (numbers : List F)
    (target tolerance : F) (progress_tx : Bool) (max_length : Nat)
    (stop_flag : Bool) : Except SearchPanic (ResultSet × CombinationCache) :=
  match cache.get target tolerance with
  | (some cached, cache1) => .ok (cached, cache1)
  | (none, cache1) =>
      if hasNaN numbers && decide (2 ≤ numbers.length) then .error SearchPanic.unwrapNone
      else
        let sorted_numbers := fsort numbers
        let final_results :=
          optimized_backtrack target tolerance 1000 max_length stop_flag sorted_numbers [] []
        .ok (final_results, cache1.put target tolerance final_results)

/-- Result component of a `find_combinations` call. -/
def fcResults (cache : CombinationCache) (numbers : List F) (target tolerance : F)
    (progress_tx : Bool) (max_length : Nat) (stop_flag : Bool) :
    Except SearchPanic ResultSet :=
  (find_combinations cache numbers target tolerance progress_tx max_length stop_flag).map
    Prod.fst

/-- Sequence of values sent on `progress_tx` during a `find_combinations`
call.  The body of `find_combinations` (src/src/lib.rs lines 33-133) never
sends on `progress_tx` — the parameter is unused and no progress counter
exists — so the emitted sequence is empty for every input. -/
def find_combinations_progress (cache : CombinationCache) (numbers : List F)
    (target tolerance : F) (progress_tx : Bool) (max_length : Nat)
    (stop_flag : Bool) : List F := []

/-- Every strictly shorter take of `q` fails the acceptance test: along the
recursion, the ancestors of the node that accepted `q` were the takes of `q`,
and none of them was itself accepted (an accepted node returns without
recursing). -/
def ancestorsRejected (target tolerance : F) (q : List F) : Prop :=
  ∀ n, n < q.length → acceptedB target tolerance (q.take n) = false

/-! ### Generic lemmas about the backtracking engine -/

theorem take_append_le {α : Type} (p : List α) (x : α) (n : Nat) (h : n ≤ p.length) :
    (p ++ [x]).take n = p.take n := by
  rw [List.take_append_eq_append_take, Nat.sub_eq_zero_of_le h]
  simp

/-- Boolean flags in the search are literals after this normalisation. -/
theorem bool_eq_false_of_ne_true {b : Bool} (h : ¬b = true) : b = false := by
  cases b
  · rfl
  · exact absurd rfl h

/-- The shared result vector only grows: both search functions return the
incoming results extended by some suffix of newly accepted paths. -/
theorem backtrack_mono_all (t tol : F) (mr ml : Nat) (sf : Bool) :
    (∀ rest path results, ∃ extra,
        optimized_backtrack t tol mr ml sf rest path results = results ++ extra) ∧
    (∀ rest path results, ∃ extra,
        backtrack_branches t tol mr ml sf rest path results = results ++ extra) := by
  refine optimized_backtrack.mutual_induct t tol mr ml sf
    (fun rest path results => ∃ extra,
      optimized_backtrack t tol mr ml sf rest path results = results ++ extra)
    (fun rest path results => ∃ extra,
      backtrack_branches t tol mr ml sf rest path results = results ++ extra)
    ?_ ?_ ?_ ?_ ?_ ?_ ?_
  · intro rest path results hsf
    subst hsf
    exact ⟨[], by rw [optimized_backtrack]; simp⟩
  · intro rest path results hsf hacc hroom
    have hsf0 := bool_eq_false_of_ne_true hsf
    subst hsf0
    exact ⟨[path], by rw [optimized_backtrack]; simp [hacc, hroom]⟩
  · intro rest path results hsf hacc hroom
    have hsf0 := bool_eq_false_of_ne_true hsf
    subst hsf0
    exact ⟨[], by rw [optimized_backtrack]; simp [hacc, hroom]⟩
  · intro rest path results hsf hacc hcap
    have hsf0 := bool_eq_false_of_ne_true hsf
    subst hsf0
    simp only [Bool.or_false, decide_eq_true_eq] at hcap
    exact ⟨[], by rw [optimized_backtrack]; simp [hacc, hcap]⟩
  · intro rest path results hsf hacc hcap ih
    have hsf0 := bool_eq_false_of_ne_true hsf
    subst hsf0
    simp only [Bool.or_false, decide_eq_true_eq] at hcap
    obtain ⟨e, he⟩ := ih
    refine ⟨e, ?_⟩
    rw [optimized_backtrack]
    simp only [Bool.false_eq_true, if_false, hacc, hcap]
    exact he
  · intro path results
    exact ⟨[], by rw [backtrack_branches]; simp⟩
  · intro path results y ys ih1 ih2
    cases sf with
    | true =>
        simp only [if_true] at ih2
        obtain ⟨e2, he2⟩ := ih2
        exact ⟨e2, by rw [backtrack_branches]; simpa using he2⟩
    | false =>
        simp only [Bool.false_eq_true, if_false, dite_false] at ih2
        obtain ⟨e1, he1⟩ := ih1
        obtain ⟨e2, he2⟩ := ih2
        refine ⟨e1 ++ e2, ?_⟩
        rw [backtrack_branches]
        simp only [Bool.false_eq_true, if_false]
        rw [he2, he1, List.append_assoc]

theorem optimized_backtrack_mono (t tol : F) (mr ml : Nat) (sf : Bool)
    (rest path : List F) (results : ResultSet) :
    ∃ extra, optimized_backtrack t tol mr ml sf rest path results = results ++ extra :=
  (backtrack_mono_all t tol mr ml sf).1 rest path results

theorem backtrack_branches_mono (t tol : F) (mr ml : Nat) (sf : Bool)
    (rest path : List F) (results : ResultSet) :
    ∃ extra, backtrack_branches t tol mr ml sf rest path results = results ++ extra :=
  (backtrack_mono_all t tol mr ml sf).2 rest path results

theorem length_le_optimized_backtrack (t tol : F) (mr ml : Nat) (sf : Bool)
    (rest path : List F) (results : ResultSet) :
    results.length ≤ (optimized_backtrack t tol mr ml sf rest path results).length := by
  obtain ⟨e, he⟩ := optimized_backtrack_mono t tol mr ml sf rest path results
  simp [he]

theorem length_le_backtrack_branches (t tol : F) (mr ml : Nat) (sf : Bool)
    (rest path : List F) (results : ResultSet) :
    results.length ≤ (backtrack_branches t tol mr ml sf rest path results).length := by
  obtain ⟨e, he⟩ := backtrack_branches_mono t tol mr ml sf rest path results
  simp [he]

theorem mem_backtrack_branches_of_mem (t tol : F) (mr ml : Nat) (sf : Bool)
    (rest path : List F) (results : ResultSet) (q : List F) (hq : q ∈ results) :
    q ∈ backtrack_branches t tol mr ml sf rest path results := by
  obtain ⟨e, he⟩ := backtrack_branches_mono t tol mr ml sf rest path results
  rw [he]
  exact List.mem_append_left _ hq

/-- Soundness of the engine: any path in the output either was already in the
incoming results, or passed the acceptance test while all its strict takes
failed it. -/
theorem backtrack_sound_all (t tol : F) (mr ml : Nat) (sf : Bool) :
    (∀ rest path results,
      ancestorsRejected t tol path →
      ∀ q ∈ optimized_backtrack t tol mr ml sf rest path results,
        q ∈ results ∨ (acceptedB t tol q = true ∧ ancestorsRejected t tol q)) ∧
    (∀ rest path results,
      (∀ n, n ≤ path.length → acceptedB t tol (path.take n) = false) →
      ∀ q ∈ backtrack_branches t tol mr ml sf rest path results,
        q ∈ results ∨ (acceptedB t tol q = true ∧ ancestorsRejected t tol q)) := by
  refine optimized_backtrack.mutual_induct t tol mr ml sf
    (fun rest path results =>
      ancestorsRejected t tol path →
      ∀ q ∈ optimized_backtrack t tol mr ml sf rest path results,
        q ∈ results ∨ (acceptedB t tol q = true ∧ ancestorsRejected t tol q))
    (fun rest path results =>
      (∀ n, n ≤ path.length → acceptedB t tol (path.take n) = false) →
      ∀ q ∈ backtrack_branches t tol mr ml sf rest path results,
        q ∈ results ∨ (acceptedB t tol q = true ∧ ancestorsRejected t tol q))
    ?_ ?_ ?_ ?_ ?_ ?_ ?_
  · intro rest path results hsf hanc q hqmem
    subst hsf
    rw [optimized_backtrack] at hqmem
    simp only [if_true] at hqmem
    exact Or.inl hqmem
  · intro rest path results hsf hacc hroom hanc q hqmem
    have hsf0 := bool_eq_false_of_ne_true hsf
    subst hsf0
    rw [optimized_backtrack] at hqmem
    simp only [Bool.false_eq_true, if_false, hacc, if_true, hroom] at hqmem
    rcases List.mem_append.mp hqmem with h | h
    · exact Or.inl h
    · rcases List.mem_singleton.mp h with rfl
      exact Or.inr ⟨hacc, hanc⟩
  · intro rest path results hsf hacc hroom hanc q hqmem
    have hsf0 := bool_eq_false_of_ne_true hsf
    subst hsf0
    rw [optimized_backtrack] at hqmem
    simp only [Bool.false_eq_true, if_false, hacc, if_true, hroom] at hqmem
    exact Or.inl hqmem
  · intro rest path results hsf hacc hcap hanc q hqmem
    have hsf0 := bool_eq_false_of_ne_true hsf
    subst hsf0
    simp only [Bool.or_false, decide_eq_true_eq] at hcap
    rw [optimized_backtrack] at hqmem
    simp only [Bool.false_eq_true, if_false, hacc, hcap, if_true, Bool.or_false,
      decide_eq_true_eq] at hqmem
    exact Or.inl hqmem
  · intro rest path results hsf hacc hcap ih hanc q hqmem
    have hsf0 := bool_eq_false_of_ne_true hsf
    subst hsf0
    simp only [Bool.or_false, decide_eq_true_eq] at hcap
    rw [optimized_backtrack] at hqmem
    simp only [Bool.false_eq_true, if_false, hacc, hcap, Bool.or_false,
      decide_eq_true_eq] at hqmem
    refine ih ?_ q hqmem
    intro n hn
    rcases Nat.lt_or_ge n path.length with h | h
    · exact hanc n h
    · have hnl : n = path.length := le_antisymm hn h
      rw [hnl, List.take_length]
      exact bool_eq_false_of_ne_true hacc
  · intro path results hb q hqmem
    rw [backtrack_branches] at hqmem
    exact Or.inl hqmem
  · intro path results y ys ih1 ih2 hb q hqmem
    rw [backtrack_branches] at hqmem
    cases sf with
    | true =>
        simp only [if_true] at hqmem ih2
        exact ih2 hb q hqmem
    | false =>
        simp only [Bool.false_eq_true, if_false, dite_false] at hqmem ih2
        rcases ih2 hb q hqmem with h | h
        · refine (ih1 ?_ q h).imp id id
          intro n hn
          simp only [List.length_append, List.length_singleton] at hn
          have hle : n ≤ path.length := Nat.lt_succ_iff.mp hn
          rw [take_append_le path y n hle]
          exact hb n hle
        · exact Or.inr h

/-- The result cap is respected: if the incoming result list is within the
cap, so is the outgoing one. -/
theorem backtrack_cap_all (t tol : F) (mr ml : Nat) (sf : Bool) :
    (∀ rest path results, results.length ≤ mr →
      (optimized_backtrack t tol mr ml sf rest path results).length ≤ mr) ∧
    (∀ rest path results, results.length ≤ mr →
      (backtrack_branches t tol mr ml sf rest path results).length ≤ mr) := by
  refine optimized_backtrack.mutual_induct t tol mr ml sf
    (fun rest path results => results.length ≤ mr →
      (optimized_backtrack t tol mr ml sf rest path results).length ≤ mr)
    (fun rest path results => results.length ≤ mr →
      (backtrack_branches t tol mr ml sf rest path results).length ≤ mr)
    ?_ ?_ ?_ ?_ ?_ ?_ ?_
  · intro rest path results hsf h
    subst hsf
    rw [optimized_backtrack]
    simpa using h
  · intro rest path results hsf hacc hroom h
    have hsf0 := bool_eq_false_of_ne_true hsf
    subst hsf0
    rw [optimized_backtrack]
    simp only [Bool.false_eq_true, if_false, hacc, if_true, hroom, List.length_append,
      List.length_singleton]
    omega
  · intro rest path results hsf hacc hroom h
    have hsf0 := bool_eq_false_of_ne_true hsf
    subst hsf0
    rw [optimized_backtrack]
    simpa [hacc, hroom] using h
  · intro rest path results hsf hacc hcap h
    have hsf0 := bool_eq_false_of_ne_true hsf
    subst hsf0
    simp only [Bool.or_false, decide_eq_true_eq] at hcap
    rw [optimized_backtrack]
    simpa [hacc, hcap] using h
  · intro rest path results hsf hacc hcap ih h
    have hsf0 := bool_eq_false_of_ne_true hsf
    subst hsf0
    simp only [Bool.or_false, decide_eq_true_eq] at hcap
    rw [optimized_backtrack]
    simp only [Bool.false_eq_true, if_false, hacc, hcap, Bool.or_false, decide_eq_true_eq]
    exact ih h
  · intro path results h
    rw [backtrack_branches]
    exact h
  · intro path results y ys ih1 ih2 h
    rw [backtrack_branches]
    cases sf with
    | true =>
        simp only [if_true] at ih2 ⊢
        exact ih2 h
    | false =>
        simp only [Bool.false_eq_true, if_false, dite_false] at ih2 ⊢
        exact ih2 (ih1 h)

/-- Completeness of the uncancelled engine: no branch is ever discarded for
bound reasons.  Every sublist `s` of the remaining suffix whose extension of
the current path is accepted, and all of whose strict takes extend the path
to rejected paths, ends up in the result list — provided the final result
list stays below the cap (the result list never shrinks, so a final length
below the cap means the cap never blocked anything). -/
theorem backtrack_complete_all (t tol : F) (mr ml : Nat) :
    (∀ rest path results, ∀ s : List F, s.Sublist rest →
      acceptedB t tol (path ++ s) = true →
      (∀ n, n < s.length → acceptedB t tol (path ++ s.take n) = false) →
      (optimized_backtrack t tol mr ml false rest path results).length < mr →
      path ++ s ∈ optimized_backtrack t tol mr ml false rest path results) ∧
    (∀ rest path results, ∀ s : List F, s.Sublist rest → s ≠ [] →
      acceptedB t tol (path ++ s) = true →
      (∀ n, n < s.length → acceptedB t tol (path ++ s.take n) = false) →
      (backtrack_branches t tol mr ml false rest path results).length < mr →
      path ++ s ∈ backtrack_branches t tol mr ml false rest path results) := by
  refine optimized_backtrack.mutual_induct t tol mr ml false
    (fun rest path results => ∀ s : List F, s.Sublist rest →
      acceptedB t tol (path ++ s) = true →
      (∀ n, n < s.length → acceptedB t tol (path ++ s.take n) = false) →
      (optimized_backtrack t tol mr ml false rest path results).length < mr →
      path ++ s ∈ optimized_backtrack t tol mr ml false rest path results)
    (fun rest path results => ∀ s : List F, s.Sublist rest → s ≠ [] →
      acceptedB t tol (path ++ s) = true →
      (∀ n, n < s.length → acceptedB t tol (path ++ s.take n) = false) →
      (backtrack_branches t tol mr ml false rest path results).length < mr →
      path ++ s ∈ backtrack_branches t tol mr ml false rest path results)
    ?_ ?_ ?_ ?_ ?_ ?_ ?_
  · intro rest path results hsf
    exact absurd hsf (by simp)
  · intro rest path results hsf hacc hroom s hs hS hmin hcap
    rw [optimized_backtrack]
    simp only [Bool.false_eq_true, if_false, hacc, if_true, hroom]
    cases s with
    | nil =>
        simp only [List.append_nil]
        exact List.mem_append_right _ (List.mem_singleton.mpr rfl)
    | cons a s1 =>
        have h0 := hmin 0 (by simp)
        simp only [List.take_zero, List.append_nil] at h0
        rw [h0] at hacc
        exact absurd hacc (by simp)
  · intro rest path results hsf hacc hroom s hs hS hmin hcap
    rw [optimized_backtrack] at hcap
    simp only [Bool.false_eq_true, if_false, hacc, if_true, hroom] at hcap
  · intro rest path results hsf hacc hcapline s hs hS hmin hcap
    simp only [Bool.or_false, decide_eq_true_eq] at hcapline
    rw [optimized_backtrack] at hcap
    simp only [Bool.false_eq_true, if_false, hacc, hcapline, if_true, Bool.or_false,
      decide_eq_true_eq] at hcap
    omega
  · intro rest path results hsf hacc hcapline ih s hs hS hmin hcap
    simp only [Bool.or_false, decide_eq_true_eq] at hcapline
    rw [optimized_backtrack] at hcap ⊢
    simp only [Bool.false_eq_true, if_false, hacc, hcapline, Bool.or_false,
      decide_eq_true_eq] at hcap ⊢
    have hne : s ≠ [] := by
      intro h0
      subst h0
      simp only [List.append_nil] at hS
      rw [hS] at hacc
      exact absurd hacc (by simp)
    exact ih s hs hne hS hmin hcap
  · intro path results s hs hne hS hmin hcap
    exact absurd (List.sublist_nil.mp hs) hne
  · intro path results y ys ih1 ih2 s hs hne hS hmin hcap
    rw [backtrack_branches] at hcap ⊢
    simp only [Bool.false_eq_true, if_false] at hcap ⊢
    simp only [Bool.false_eq_true, if_false, dite_false] at ih2
    cases hs with
    | cons _ h =>
        exact ih2 s h hne hS hmin hcap
    | cons₂ _ h =>
        rename_i s1
        have hmem : path ++ y :: s1 ∈
            optimized_backtrack t tol mr ml false ys (path ++ [y]) results := by
          have hS2 : acceptedB t tol ((path ++ [y]) ++ s1) = true := by
            rw [List.append_assoc, List.singleton_append]
            exact hS
          have hmin2 : ∀ n, n < s1.length →
              acceptedB t tol ((path ++ [y]) ++ s1.take n) = false := by
            intro n hn
            have := hmin (n + 1) (by simpa using Nat.succ_lt_succ hn)
            rw [List.take_succ_cons] at this
            rw [List.append_assoc, List.singleton_append]
            exact this
          have hcap2 :
              (optimized_backtrack t tol mr ml false ys (path ++ [y]) results).length
                < mr :=
            lt_of_le_of_lt (length_le_backtrack_branches t tol mr ml false ys path _) hcap
          have := ih1 s1 h hS2 hmin2 hcap2
          rw [List.append_assoc, List.singleton_append] at this
          exact this
        exact mem_backtrack_branches_of_mem t tol mr ml false ys path _ _ hmem

/-! ### Cache lemmas and concrete key computations -/

theorem roundHalfEven_of_lt {q : ℚ} {f : ℤ} (hf : ⌊q⌋ = f) (h : q - f < 1 / 2) :
    roundHalfEven q = f := by
  rw [roundHalfEven, hf, if_pos h]

theorem roundHalfEven_of_gt {q : ℚ} {f : ℤ} (hf : ⌊q⌋ = f) (h : 1 / 2 < q - f) :
    roundHalfEven q = f + 1 := by
  rw [roundHalfEven, hf, if_neg (by linarith), if_pos h]

theorem roundHalfEven_of_tie_even {q : ℚ} {f : ℤ} (hf : ⌊q⌋ = f) (h : q - f = 1 / 2)
    (he : 2 ∣ f) : roundHalfEven q = f := by
  rw [roundHalfEven, hf, if_neg (by simp [h]), if_neg (by simp [h]), if_pos he]

theorem rkey_five : rkey (F.fin 5) = some (500, false) := by
  have h1 : roundHalfEven (100 * 5 : ℚ) = 500 :=
    roundHalfEven_of_lt (by norm_num) (by norm_num)
  simp only [rkey, h1]
  norm_num

theorem rkey_one : rkey (F.fin 1) = some (100, false) := by
  have h1 : roundHalfEven (100 * 1 : ℚ) = 100 :=
    roundHalfEven_of_lt (by norm_num) (by norm_num)
  simp only [rkey, h1]
  norm_num

theorem rkey_tenth : rkey (F.fin (1 / 10)) = some (10, false) := by
  have h1 : roundHalfEven (100 * (1 / 10) : ℚ) = 10 :=
    roundHalfEven_of_lt (by norm_num) (by norm_num)
  simp only [rkey, h1]
  norm_num

theorem rkey_eighth : rkey (F.fin (1 / 8)) = some (12, false) := by
  have h1 : roundHalfEven (100 * (1 / 8) : ℚ) = 12 :=
    roundHalfEven_of_tie_even (by norm_num) (by norm_num) (by norm_num)
  simp only [rkey, h1]
  norm_num

theorem rkey_t1279 : rkey (F.fin (1279 / 256)) = some (500, false) := by
  have h1 : roundHalfEven (100 * (1279 / 256) : ℚ) = 500 := by
    have := roundHalfEven_of_gt (q := 100 * (1279 / 256)) (f := 499)
      (by norm_num) (by norm_num)
    simpa using this
  simp only [rkey, h1]
  norm_num

theorem rkey_tenth_inv : rkey (F.fin 10⁻¹) = some (10, false) := by
  rw [show (10⁻¹ : ℚ) = 1 / 10 by norm_num]
  exact rkey_tenth

theorem rkey_eighth_inv : rkey (F.fin 8⁻¹) = some (12, false) := by
  rw [show (8⁻¹ : ℚ) = 1 / 8 by norm_num]
  exact rkey_eighth

theorem get_of_fst_none {c : CombinationCache} {t tol : F}
    (h : (c.get t tol).1 = none) : c.get t tol = (none, c) := by
  rw [CombinationCache.get] at h ⊢
  cases hfv : findVal (ckey t tol) c.entries with
  | none => rfl
  | some v => rw [hfv] at h; exact absurd h (by simp)

theorem get_eq_some {c : CombinationCache} {t tol : F} {v : ResultSet}
    {cc : CombinationCache} (h : c.get t tol = (some v, cc)) :
    findVal (ckey t tol) c.entries = some v ∧
      cc = ⟨(ckey t tol, v) :: removeKey (ckey t tol) c.entries, c.capacity⟩ := by
  rw [CombinationCache.get] at h
  cases hfv : findVal (ckey t tol) c.entries with
  | none =>
      rw [hfv] at h
      exact absurd h (by simp)
  | some w =>
      rw [hfv] at h
      simp only [Prod.mk.injEq, Option.some.injEq] at h
      obtain ⟨hw, hcc⟩ := h
      subst hw
      exact ⟨rfl, hcc.symm⟩

theorem get_eq_none {c : CombinationCache} {t tol : F} {cc : CombinationCache}
    (h : c.get t tol = (none, cc)) :
    cc = c ∧ findVal (ckey t tol) c.entries = none := by
  rw [CombinationCache.get] at h
  cases hfv : findVal (ckey t tol) c.entries with
  | none =>
      rw [hfv] at h
      simp only [Prod.mk.injEq] at h
      exact ⟨h.2.symm, rfl⟩
  | some w =>
      rw [hfv] at h
      exact absurd h (by simp)

theorem findVal_put_self (c : CombinationCache) (t tol : F) (R : ResultSet)
    (hcap : 1 ≤ c.capacity) :
    findVal (ckey t tol) (c.put t tol R).entries = some R := by
  rw [CombinationCache.put]
  obtain ⟨m, hm⟩ : ∃ m, c.capacity = m + 1 := ⟨c.capacity - 1, by omega⟩
  rw [hm, List.take_succ_cons, findVal, if_pos rfl]

theorem findVal_mem {k : CKey} {es : List (CKey × ResultSet)} {v : ResultSet}
    (h : findVal k es = some v) : (k, v) ∈ es := by
  induction es with
  | nil => simp [findVal] at h
  | cons e es ih =>
      rw [findVal] at h
      by_cases he : e.1 = k
      · rw [if_pos he] at h
        obtain ⟨k1, v1⟩ := e
        simp only [Option.some.injEq] at h
        simp only at he
        subst he
        subst h
        exact List.mem_cons_self _ _
      · rw [if_neg he] at h
        exact List.mem_cons_of_mem _ (ih h)

/-- After any successful `find_combinations` call, the cache state it returns
holds the returned result set under the rendered key of the call. -/
theorem findVal_after_find {c : CombinationCache} {ns : List F} {t tol : F}
    {p : Bool} {ml : Nat} {sf : Bool} {R : ResultSet} {c1 : CombinationCache}
    (hcap : 1 ≤ c.capacity)
    (h : find_combinations c ns t tol p ml sf = .ok (R, c1)) :
    findVal (ckey t tol) c1.entries = some R ∧ 1 ≤ c1.capacity := by
  rw [find_combinations] at h
  split at h
  · rename_i v cc hget
    obtain ⟨hfv, hcc⟩ := get_eq_some hget
    simp only [Except.ok.injEq, Prod.mk.injEq] at h
    obtain ⟨h1, h2⟩ := h
    subst h2
    rw [hcc]
    constructor
    · show findVal (ckey t tol) ((ckey t tol, v) :: removeKey (ckey t tol) c.entries)
        = some R
      rw [findVal, if_pos rfl, h1]
    · simpa using hcap
  · rename_i cc hget
    obtain ⟨hcc, hfv⟩ := get_eq_none hget
    subst hcc
    split at h
    · exact absurd h (by simp)
    · simp only [Except.ok.injEq, Prod.mk.injEq] at h
      obtain ⟨h1, h2⟩ := h
      rw [← h2, ← h1]
      refine ⟨findVal_put_self _ t tol _ hcap, ?_⟩
      rw [CombinationCache.put]
      simpa using hcap

/-- On a cache miss without NaN panic, `find_combinations` runs the search on
the sorted input from an empty path and empty result vector, and stores the
outcome. -/
theorem find_miss_eq {c : CombinationCache} {ns : List F} {t tol : F} {p : Bool}
    {ml : Nat} {sf : Bool}
    (hmiss : (c.get t tol).1 = none)
    (hnan : ¬(hasNaN ns && decide (2 ≤ ns.length)) = true) :
    find_combinations c ns t tol p ml sf =
      .ok (optimized_backtrack t tol 1000 ml sf (fsort ns) [] [],
        c.put t tol (optimized_backtrack t tol 1000 ml sf (fsort ns) [] [])) := by
  rw [find_combinations, get_of_fst_none hmiss]
  show (if (hasNaN ns && decide (2 ≤ ns.length)) = true
      then (Except.error SearchPanic.unwrapNone :
        Except SearchPanic (ResultSet × CombinationCache))
      else Except.ok (optimized_backtrack t tol 1000 ml sf (fsort ns) [] [],
        c.put t tol (optimized_backtrack t tol 1000 ml sf (fsort ns) [] []))) = _
  rw [if_neg hnan]

/-- On a cache miss with a NaN among at least two inputs, `find_combinations`
panics inside the sort. -/
theorem find_nan_eq {c : CombinationCache} {ns : List F} {t tol : F} {p : Bool}
    {ml : Nat} {sf : Bool}
    (hmiss : (c.get t tol).1 = none)
    (hnan : (hasNaN ns && decide (2 ≤ ns.length)) = true) :
    find_combinations c ns t tol p ml sf = .error SearchPanic.unwrapNone := by
  rw [find_combinations, get_of_fst_none hmiss]
  show (if (hasNaN ns && decide (2 ≤ ns.length)) = true
      then (Except.error SearchPanic.unwrapNone :
        Except SearchPanic (ResultSet × CombinationCache))
      else Except.ok (optimized_backtrack t tol 1000 ml sf (fsort ns) [] [],
        c.put t tol (optimized_backtrack t tol 1000 ml sf (fsort ns) [] []))) = _
  rw [if_pos hnan]

/-- On a cache hit, `find_combinations` returns the cached set unchanged and
only refreshes the LRU position; the input collection is never consulted. -/
theorem find_hit_eq {c : CombinationCache} {t tol : F} {v : ResultSet}
    (ns : List F) (p : Bool) (ml : Nat) (sf : Bool)
    (hhit : findVal (ckey t tol) c.entries = some v) :
    find_combinations c ns t tol p ml sf =
      .ok (v, ⟨(ckey t tol, v) :: removeKey (ckey t tol) c.entries, c.capacity⟩) := by
  have hget : c.get t tol =
      (some v, ⟨(ckey t tol, v) :: removeKey (ckey t tol) c.entries, c.capacity⟩) := by
    simp only [CombinationCache.get, hhit]
  rw [find_combinations, hget]

/-! ### Concrete evaluations of the engine -/

set_option maxHeartbeats 1000000

/-- Evaluation of the README scenario: numbers 1, 2, 3, 4, target 5,
tolerance 0.1, max length 5, no cancellation, fresh cache. -/
theorem eval_basic :
    fcResults CACHE0 [F.fin 1, F.fin 2, F.fin 3, F.fin 4] (F.fin 5) (F.fin (1 / 10))
      false 5 false = .ok [[F.fin 1, F.fin 4], [F.fin 2, F.fin 3]] := by
  simp +decide [fcResults, find_combinations, CombinationCache.get, findVal, CACHE0,
    hasNaN, fsort, finsert, fle, isNaN,
    optimized_backtrack, backtrack_branches, acceptedB, fsum, fadd, fsub, fabs,
    abs_sub_comm, abs_le]
  norm_num [Except.map]

/-- Same scenario with a progress sink attached. -/
theorem eval_basic_sink :
    fcResults CACHE0 [F.fin 1, F.fin 2, F.fin 3, F.fin 4] (F.fin 5) (F.fin (1 / 10))
      true 5 false = .ok [[F.fin 1, F.fin 4], [F.fin 2, F.fin 3]] := by
  simp +decide [fcResults, find_combinations, CombinationCache.get, findVal, CACHE0,
    hasNaN, fsort, finsert, fle, isNaN,
    optimized_backtrack, backtrack_branches, acceptedB, fsum, fadd, fsub, fabs,
    abs_sub_comm, abs_le]
  norm_num [Except.map]

/-- With numbers 5 and 100, target 5, tolerance 0.1, the single path `[5.0]`
is returned even though the lower-bound prune condition holds for its branch. -/
theorem eval_prune_scenario :
    fcResults CACHE0 [F.fin 5, F.fin 100] (F.fin 5) (F.fin (1 / 10)) false 5 false
      = .ok [[F.fin 5]] := by
  simp +decide [fcResults, find_combinations, CombinationCache.get, findVal, CACHE0,
    hasNaN, fsort, finsert, fle, isNaN,
    optimized_backtrack, backtrack_branches, acceptedB, fsum, fadd, fsub, fabs,
    abs_sub_comm, abs_le]
  norm_num [Except.map]

/-- Same scenario with tolerance 1. -/
theorem eval_prune_scenario_tol_one :
    fcResults CACHE0 [F.fin 5, F.fin 100] (F.fin 5) (F.fin 1) false 5 false
      = .ok [[F.fin 5]] := by
  simp +decide [fcResults, find_combinations, CombinationCache.get, findVal, CACHE0,
    hasNaN, fsort, finsert, fle, isNaN,
    optimized_backtrack, backtrack_branches, acceptedB, fsum, fadd, fsub, fabs,
    abs_sub_comm, abs_le]
  norm_num [Except.map]

/-- With `max_length = 0` the call still returns the path `[5.0]` of length 1:
`max_length` is threaded through `optimized_backtrack` but never read. -/
theorem eval_maxlen_zero :
    fcResults CACHE0 [F.fin 5] (F.fin 5) (F.fin (1 / 10)) false 0 false
      = .ok [[F.fin 5]] := by
  simp +decide [fcResults, find_combinations, CombinationCache.get, findVal, CACHE0,
    hasNaN, fsort, finsert, fle, isNaN,
    optimized_backtrack, backtrack_branches, acceptedB, fsum, fadd, fsub, fabs,
    abs_sub_comm, abs_le]
  norm_num [Except.map]

/-- First call of the stale-cache scenario: numbers `[5.125]`, target 5,
tolerance 0.125.  `|5.125 - 5| = 0.125` is accepted and the result is stored
under the rendered key `5.00_0.12`. -/
theorem eval_stale_first :
    find_combinations CACHE0 [F.fin (41 / 8)] (F.fin 5) (F.fin (1 / 8)) false 5 false
      = .ok ([[F.fin (41 / 8)]],
        ⟨[((some (500, false), some (12, false)), [[F.fin (41 / 8)]])], 1000000⟩) := by
  simp +decide [find_combinations, CombinationCache.get, CombinationCache.put,
    removeKey, findVal, CACHE0, CACHE_CAPACITY, hasNaN, fsort, finsert, fle, isNaN,
    ckey, rkey_five, rkey_eighth, rkey_eighth_inv,
    optimized_backtrack, backtrack_branches, acceptedB, fsum, fadd, fsub, fabs,
    abs_sub_comm, abs_le]
  norm_num [rkey_five, rkey_eighth]

/-- Second call of the stale-cache scenario: target `5 - 1/256 = 4.99609375`
also renders as `5.00`, so the call hits the cached entry and returns the
stale path `[5.125]` without looking at its own numbers `[1.0]`. -/
theorem eval_stale_second :
    fcResults ⟨[((some (500, false), some (12, false)), [[F.fin (41 / 8)]])], 1000000⟩
      [F.fin 1] (F.fin (1279 / 256)) (F.fin (1 / 8)) false 5 false
      = .ok [[F.fin (41 / 8)]] := by
  simp +decide [fcResults, find_combinations, CombinationCache.get, findVal,
    ckey, rkey_t1279, rkey_eighth, rkey_eighth_inv, Except.map]

/-- A cancelled search returns no paths but still stores the empty result set
in the cache under its rendered key. -/
theorem eval_cancelled :
    find_combinations CACHE0 [F.fin 5] (F.fin 5) (F.fin (1 / 10)) false 5 true
      = .ok ([], ⟨[((some (500, false), some (10, false)), [])], 1000000⟩) := by
  simp +decide [find_combinations, CombinationCache.get, CombinationCache.put,
    removeKey, findVal, CACHE0, CACHE_CAPACITY, hasNaN, fsort, finsert, fle, isNaN,
    ckey, rkey_five, rkey_tenth, rkey_tenth_inv, optimized_backtrack, acceptedB,
    fsum, fadd, fsub, fabs]

/-- Full evaluation of the single-number search, including the cache state it
stores. -/
theorem eval_single_five :
    find_combinations CACHE0 [F.fin 5] (F.fin 5) (F.fin (1 / 10)) false 5 false
      = .ok ([[F.fin 5]],
        ⟨[((some (500, false), some (10, false)), [[F.fin 5]])], 1000000⟩) := by
  simp +decide [find_combinations, CombinationCache.get, CombinationCache.put,
    removeKey, findVal, CACHE0, CACHE_CAPACITY, hasNaN, fsort, finsert, fle, isNaN,
    ckey, rkey_five, rkey_tenth, rkey_tenth_inv,
    optimized_backtrack, backtrack_branches, acceptedB, fsum, fadd, fsub, fabs,
    abs_sub_comm, abs_le]

/-- Full evaluation of the tolerance-1 two-number search, including the cache
state it stores. -/
theorem eval_prune_tol_one_full :
    find_combinations CACHE0 [F.fin 5, F.fin 100] (F.fin 5) (F.fin 1) false 5 false
      = .ok ([[F.fin 5]],
        ⟨[((some (500, false), some (100, false)), [[F.fin 5]])], 1000000⟩) := by
  simp +decide [find_combinations, CombinationCache.get, CombinationCache.put,
    removeKey, findVal, CACHE0, CACHE_CAPACITY, hasNaN, fsort, finsert, fle, isNaN,
    ckey, rkey_five, rkey_one,
    optimized_backtrack, backtrack_branches, acceptedB, fsum, fadd, fsub, fabs,
    abs_sub_comm, abs_le]
  norm_num [rkey_five, rkey_one]

/-! ### Claims -/

/-- C1 (counterexample).  The tolerance-soundness claim fails across calls
because of the rounded cache key: a first call with numbers `[5.125]`,
target `5.0`, tolerance `0.125` returns and caches `[[5.125]]`; a second call
with target `4.99609375` (same rendered key `5.00_0.12`) and numbers `[1.0]`
returns the cached `[[5.125]]`, whose sum differs from the second target by
`0.12890625 > 0.125`, violating the second call's tolerance. -/
theorem C1_counterexample :
    find_combinations CACHE0 [F.fin (41 / 8)] (F.fin 5) (F.fin (1 / 8)) false 5 false
        = .ok ([[F.fin (41 / 8)]],
          ⟨[((some (500, false), some (12, false)), [[F.fin (41 / 8)]])], 1000000⟩) ∧
      fcResults ⟨[((some (500, false), some (12, false)), [[F.fin (41 / 8)]])], 1000000⟩
        [F.fin 1] (F.fin (1279 / 256)) (F.fin (1 / 8)) false 5 false
        = .ok [[F.fin (41 / 8)]] ∧
      fle (fabs (fsub (fsum [F.fin (41 / 8)]) (F.fin (1279 / 256)))) (F.fin (1 / 8))
        = false := by
  refine ⟨eval_stale_first, eval_stale_second, ?_⟩
  simp +decide [fle, fabs, fsub, fsum, fadd]
  norm_num [lt_abs]

/-- C1 (amended).  For every call that misses the cache, every path of the
returned result set is non-empty and its sum is within the call's own
tolerance of the call's own target; a cache hit returns the cached set, which
is sound only for the original call's target and tolerance. -/
theorem C1_fresh_sound (c : CombinationCache) (ns : List F) (t tol : F) (p : Bool)
    (ml : Nat) (sf : Bool) (R : ResultSet) (c1 : CombinationCache)
    (hmiss : (c.get t tol).1 = none)
    (h : find_combinations c ns t tol p ml sf = .ok (R, c1)) :
    ∀ q ∈ R, q ≠ [] ∧ fle (fabs (fsub (fsum q) t)) tol = true := by
  by_cases hnan : (hasNaN ns && decide (2 ≤ ns.length)) = true
  · rw [find_nan_eq hmiss hnan] at h
    exact absurd h (by simp)
  · rw [find_miss_eq hmiss hnan] at h
    simp only [Except.ok.injEq, Prod.mk.injEq] at h
    obtain ⟨h1, h2⟩ := h
    subst h1
    intro q hq
    have hanc : ancestorsRejected t tol [] := by
      intro n hn
      simp at hn
    rcases (backtrack_sound_all t tol 1000 ml sf).1 (fsort ns) [] [] hanc q hq with
      hmem | ⟨hacc, _⟩
    · simp at hmem
    · rw [acceptedB, Bool.and_eq_true] at hacc
      obtain ⟨hle, hne⟩ := hacc
      refine ⟨?_, hle⟩
      intro h0
      subst h0
      simp at hne

/-- C1 (witness). -/
theorem C1_fresh_sound_witness :
    (CACHE0.get (F.fin 5) (F.fin (1 / 10))).1 = none ∧
      ([F.fin 5] ≠ ([] : List F) ∧
        fle (fabs (fsub (fsum [F.fin 5]) (F.fin 5))) (F.fin (1 / 10)) = true) :=
  ⟨rfl,
    C1_fresh_sound CACHE0 [F.fin 5] (F.fin 5) (F.fin (1 / 10)) false 5 false
      [[F.fin 5]] ⟨[((some (500, false), some (10, false)), [[F.fin 5]])], 1000000⟩
      rfl eval_single_five [F.fin 5] (by simp)⟩

/-- C2 (code bug).  With `max_length = 0` the engine still returns the path
`[5.0]` of length `1 > 0`: `optimized_backtrack` receives `max_length` but
never reads it, so no length bound exists and the result set is not empty. -/
theorem C2_maxlength_ignored :
    fcResults CACHE0 [F.fin 5] (F.fin 5) (F.fin (1 / 10)) false 0 false
        = .ok [[F.fin 5]] ∧
      ([F.fin 5] : List F).length = 1 :=
  ⟨eval_maxlen_zero, rfl⟩

/-- C3 (counterexample).  The path `[5.0]` is returned for sorted numbers
`[5.0, 100.0]`, target `5.0`, tolerance `0.1`, although it is only reachable
by recursing into the branch for index 0 at the root, whose lower-bound prune
condition holds: `running_sum + numbers[0] + smallest_remaining =
0 + 5 + 100 > 5.1 = target + tolerance`.  The claimed prune is therefore not
performed: src/src/lib.rs lines 99-103 keep only the result-count and
stop-flag checks, and `max_remaining_sum` is never called. -/
theorem C3_counterexample :
    fcResults CACHE0 [F.fin 5, F.fin 100] (F.fin 5) (F.fin (1 / 10)) false 5 false
        = .ok [[F.fin 5]] ∧
      ((0 : ℚ) + 5 + 100 > 5 + 1 / 10) :=
  ⟨eval_prune_scenario, by norm_num⟩

/-- C3 (amended).  No bound-based prune is performed: in an uncancelled
cache-missing search, every non-empty sublist of the sorted input that passes
the acceptance test, and all of whose strict takes fail it, is present in the
returned result set (as long as the result cap was not reached) — including
sublists reachable only through branches the claimed lower-bound prune would
discard. -/
theorem C3_no_prune (c : CombinationCache) (ns : List F) (t tol : F) (p : Bool)
    (ml : Nat) (R : ResultSet) (c1 : CombinationCache)
    (hmiss : (c.get t tol).1 = none)
    (h : find_combinations c ns t tol p ml false = .ok (R, c1))
    (s : List F) (hs : s.Sublist (fsort ns)) (hne : s ≠ [])
    (hacc : acceptedB t tol s = true)
    (hmin : ∀ n, n < s.length → acceptedB t tol (s.take n) = false)
    (hcap : R.length < 1000) :
    s ∈ R := by
  by_cases hnan : (hasNaN ns && decide (2 ≤ ns.length)) = true
  · rw [find_nan_eq hmiss hnan] at h
    exact absurd h (by simp)
  · rw [find_miss_eq hmiss hnan] at h
    simp only [Except.ok.injEq, Prod.mk.injEq] at h
    obtain ⟨h1, h2⟩ := h
    subst h1
    have := (backtrack_complete_all t tol 1000 ml).1 (fsort ns) [] [] s hs
      (by simpa using hacc) (by simpa using hmin) hcap
    simpa using this

/-- C3 (witness). -/
theorem C3_no_prune_witness :
    (CACHE0.get (F.fin 5) (F.fin 1)).1 = none ∧
      [F.fin 5] ∈ ([[F.fin 5]] : ResultSet) :=
  ⟨rfl,
    C3_no_prune CACHE0 [F.fin 5, F.fin 100] (F.fin 5) (F.fin 1) false 5
      [[F.fin 5]] ⟨[((some (500, false), some (100, false)), [[F.fin 5]])], 1000000⟩
      rfl eval_prune_tol_one_full [F.fin 5]
      (by
        have hsort : fsort [F.fin 5, F.fin 100] = [F.fin 5, F.fin 100] := by
          simp +decide [fsort, finsert, fle]
        rw [hsort]
        exact List.Sublist.cons₂ _ (List.nil_sublist _))
      (by simp)
      (by simp +decide [acceptedB, fle, fabs, fsub, fsum, fadd])
      (by
        intro n hn
        have hn0 : n = 0 := by simpa using hn
        subst hn0
        simp [acceptedB])
      (by simp)⟩

/-- C4.  The result set of any call is capped at 1000 paths, provided every
set stored in the incoming cache is (which holds for the initial empty cache
and is preserved by every call): a fresh search starts from an empty result
vector and pushes only below the cap, and a cache hit returns a previously
stored set. -/
theorem C4_cap (c : CombinationCache) (ns : List F) (t tol : F) (p : Bool)
    (ml : Nat) (sf : Bool) (R : ResultSet) (c1 : CombinationCache)
    (hwf : ∀ e ∈ c.entries, e.2.length ≤ 1000)
    (h : find_combinations c ns t tol p ml sf = .ok (R, c1)) :
    R.length ≤ 1000 ∧ ∀ e ∈ c1.entries, e.2.length ≤ 1000 := by
  rw [find_combinations] at h
  split at h
  · rename_i v cc hget
    obtain ⟨hfv, hcc⟩ := get_eq_some hget
    simp only [Except.ok.injEq, Prod.mk.injEq] at h
    obtain ⟨h1, h2⟩ := h
    subst h2
    have hv : v.length ≤ 1000 := hwf _ (findVal_mem hfv)
    refine ⟨h1 ▸ hv, ?_⟩
    rw [hcc]
    intro e he
    rcases List.mem_cons.mp he with rfl | he2
    · exact hv
    · rw [removeKey] at he2
      exact hwf _ (List.mem_filter.mp he2).1
  · rename_i cc hget
    obtain ⟨hcc, hfv⟩ := get_eq_none hget
    subst hcc
    split at h
    · exact absurd h (by simp)
    · simp only [Except.ok.injEq, Prod.mk.injEq] at h
      obtain ⟨h1, h2⟩ := h
      have hR : R.length ≤ 1000 := by
        rw [← h1]
        exact (backtrack_cap_all t tol 1000 ml sf).1 _ _ _ (by simp)
      refine ⟨hR, ?_⟩
      rw [← h2]
      intro e he
      rw [CombinationCache.put] at he
      have he2 := List.Sublist.mem he (List.take_sublist _ _)
      rcases List.mem_cons.mp he2 with rfl | he3
      · show (optimized_backtrack t tol 1000 ml sf (fsort ns) [] []).length ≤ 1000
        rw [h1]
        exact hR
      · rw [removeKey] at he3
        exact hwf _ (List.mem_filter.mp he3).1

/-- C4 (witness). -/
theorem C4_cap_witness : ([[F.fin 5]] : ResultSet).length ≤ 1000 :=
  (C4_cap CACHE0 [F.fin 5] (F.fin 5) (F.fin (1 / 10)) false 5 false
    [[F.fin 5]] ⟨[((some (500, false), some (10, false)), [[F.fin 5]])], 1000000⟩
    (by simp [CACHE0]) eval_single_five).1

/-- C5.  For numbers `[1, 2, 3, 4]`, target 5, tolerance 0.1, max length 5
and an unset cancellation flag (on a fresh cache), the result set is
`[[1, 4], [2, 3]]`: it contains the paths `[1, 4]` and `[2, 3]`, and every
contained path has sum within `[4.9, 5.1]`. -/
theorem C5_scenario :
    fcResults CACHE0 [F.fin 1, F.fin 2, F.fin 3, F.fin 4] (F.fin 5) (F.fin (1 / 10))
        false 5 false = .ok [[F.fin 1, F.fin 4], [F.fin 2, F.fin 3]] ∧
      [F.fin 1, F.fin 4] ∈ ([[F.fin 1, F.fin 4], [F.fin 2, F.fin 3]] : ResultSet) ∧
      [F.fin 2, F.fin 3] ∈ ([[F.fin 1, F.fin 4], [F.fin 2, F.fin 3]] : ResultSet) ∧
      ([[F.fin 1, F.fin 4], [F.fin 2, F.fin 3]] : ResultSet).all
        (fun q => fle (F.fin (49 / 10)) (fsum q) && fle (fsum q) (F.fin (51 / 10)))
        = true := by
  refine ⟨eval_basic, by simp, by simp, ?_⟩
  simp +decide [fsum, fadd, fle]
  norm_num

/-- C6 (counterexample).  On the NaN-containing input `[NaN, 1.0]` (cache
miss), `find_combinations` panics — `partial_cmp` returns `None` inside the
sort comparator and `unwrap` panics — instead of returning an `InvalidInput`
error; indeed its return type `Vec<Vec<f64>>` has no error channel at all. -/
theorem C6_counterexample :
    find_combinations CACHE0 [F.nan, F.fin 1] (F.fin 5) (F.fin (1 / 10)) false 5 false
      = .error SearchPanic.unwrapNone :=
  find_nan_eq rfl (by decide)

/-- C6 (amended).  Any cache-missing call whose input contains a NaN among at
least two numbers panics with the `unwrap`-on-`None` panic from the sort
comparator; no `InvalidInput` error value is ever produced. -/
theorem C6_nan_panics (c : CombinationCache) (ns : List F) (t tol : F) (p : Bool)
    (ml : Nat) (sf : Bool)
    (hmiss : (c.get t tol).1 = none)
    (hn : hasNaN ns = true) (hlen : 2 ≤ ns.length) :
    find_combinations c ns t tol p ml sf = .error SearchPanic.unwrapNone :=
  find_nan_eq hmiss (by simp [hn, hlen])

/-- C6 (witness). -/
theorem C6_nan_panics_witness :
    (CACHE0.get (F.fin 5) (F.fin (1 / 10))).1 = none ∧
      hasNaN [F.nan, F.fin 1] = true ∧ 2 ≤ ([F.nan, F.fin 1] : List F).length ∧
      find_combinations CACHE0 [F.nan, F.fin 1] (F.fin 5) (F.fin (1 / 10)) true 3 false
        = .error SearchPanic.unwrapNone :=
  ⟨rfl, rfl, by decide,
    C6_nan_panics CACHE0 [F.nan, F.fin 1] (F.fin 5) (F.fin (1 / 10)) true 3 false
      rfl rfl (by decide)⟩

/-- C7 (code bug).  With a progress sink attached, an uncancelled search over
the non-empty test input runs to completion and produces solutions, yet emits
no progress value at all: `find_combinations` never sends on `progress_tx`
and maintains no progress counter.  This contradicts the crate's own test
(src/src/lib.rs line 195), which asserts that a value is received. -/
theorem C7_no_progress :
    find_combinations_progress CACHE0 [F.fin 1, F.fin 2, F.fin 3, F.fin 4] (F.fin 5)
        (F.fin (1 / 10)) true 5 false = [] ∧
      fcResults CACHE0 [F.fin 1, F.fin 2, F.fin 3, F.fin 4] (F.fin 5) (F.fin (1 / 10))
        true 5 false = .ok [[F.fin 1, F.fin 4], [F.fin 2, F.fin 3]] :=
  ⟨rfl, eval_basic_sink⟩

/-- C8.  Cache round-trip: after `put t tol R`, a `get` whose arguments render
to the same two-decimal key returns `R` (the put just happened, so no
eviction can intervene; the capacity is at least one, as guaranteed by
`NonZeroUsize` in `CombinationCache::new`). -/
theorem C8_roundtrip (c : CombinationCache) (hcap : 1 ≤ c.capacity)
    (t tol t2 tol2 : F) (R : ResultSet)
    (ht : rkey t2 = rkey t) (htol : rkey tol2 = rkey tol) :
    ((c.put t tol R).get t2 tol2).1 = some R := by
  have hk : ckey t2 tol2 = ckey t tol := by rw [ckey, ckey, ht, htol]
  have hfv := findVal_put_self c t tol R hcap
  simp only [CombinationCache.get, hk, hfv]

/-- C8 (witness). -/
theorem C8_roundtrip_witness :
    1 ≤ CACHE0.capacity ∧
      ((CACHE0.put (F.fin 5) (F.fin (1 / 10)) [[F.fin 2]]).get (F.fin 5)
        (F.fin (1 / 10))).1 = some [[F.fin 2]] :=
  ⟨by norm_num [CACHE0, CACHE_CAPACITY],
    C8_roundtrip CACHE0 (by norm_num [CACHE0, CACHE_CAPACITY]) (F.fin 5)
      (F.fin (1 / 10)) (F.fin 5) (F.fin (1 / 10)) [[F.fin 2]] rfl rfl⟩

/-- C9.  Once a call has completed — cancelled or not — any later call whose
target and tolerance render to the same two-decimal key returns the earlier
call's result set verbatim from the cache, regardless of its own numbers,
progress sink, max length or stop flag; the search is not run (the returned
paths need not be drawn from the later call's input at all). -/
theorem C9_cache_replay (c : CombinationCache) (ns : List F) (t tol : F) (p : Bool)
    (ml : Nat) (sf : Bool) (R : ResultSet) (c1 : CombinationCache)
    (hcap : 1 ≤ c.capacity)
    (h : find_combinations c ns t tol p ml sf = .ok (R, c1))
    (ns2 : List F) (t2 tol2 : F) (p2 : Bool) (ml2 : Nat) (sf2 : Bool)
    (ht : rkey t2 = rkey t) (htol : rkey tol2 = rkey tol) :
    fcResults c1 ns2 t2 tol2 p2 ml2 sf2 = .ok R := by
  obtain ⟨hfv, hcap1⟩ := findVal_after_find hcap h
  have hk : ckey t2 tol2 = ckey t tol := by rw [ckey, ckey, ht, htol]
  rw [fcResults, find_hit_eq ns2 p2 ml2 sf2 (by rw [hk]; exact hfv)]
  rfl

/-- C9 (witness): a cancelled search caches its empty result set, and a later
uncancelled search with the same rendered key returns that empty set
verbatim even though its own input would have produced a solution. -/
theorem C9_cache_replay_witness :
    1 ≤ CACHE0.capacity ∧
      find_combinations CACHE0 [F.fin 5] (F.fin 5) (F.fin (1 / 10)) false 5 true
        = .ok ([], ⟨[((some (500, false), some (10, false)), [])], 1000000⟩) ∧
      fcResults ⟨[((some (500, false), some (10, false)), [])], 1000000⟩
        [F.fin 5] (F.fin 5) (F.fin (1 / 10)) false 5 false = .ok [] :=
  ⟨by norm_num [CACHE0, CACHE_CAPACITY], eval_cancelled,
    C9_cache_replay CACHE0 [F.fin 5] (F.fin 5) (F.fin (1 / 10)) false 5 true []
      ⟨[((some (500, false), some (10, false)), [])], 1000000⟩
      (by norm_num [CACHE0, CACHE_CAPACITY]) eval_cancelled
      [F.fin 5] (F.fin 5) (F.fin (1 / 10)) false 5 false rfl rfl⟩

/-- C10.  Within a single cache-missing search, no returned path is a strict
take of another returned path: acceptance depends only on the path values,
and a node whose path is accepted returns without recursing, so no extension
of an accepted path is ever visited. -/
theorem C10_no_extension (c : CombinationCache) (ns : List F) (t tol : F)
    (p : Bool) (ml : Nat) (sf : Bool) (R : ResultSet) (c1 : CombinationCache)
    (hmiss : (c.get t tol).1 = none)
    (h : find_combinations c ns t tol p ml sf = .ok (R, c1))
    (q1 q2 : List F) (h1 : q1 ∈ R) (h2 : q2 ∈ R)
    (n : Nat) (hpre : q1 = q2.take n) : q1 = q2 := by
  by_cases hnan : (hasNaN ns && decide (2 ≤ ns.length)) = true
  · rw [find_nan_eq hmiss hnan] at h
    exact absurd h (by simp)
  · rw [find_miss_eq hmiss hnan] at h
    simp only [Except.ok.injEq, Prod.mk.injEq] at h
    obtain ⟨hR, hc⟩ := h
    subst hR
    have hanc : ancestorsRejected t tol [] := by
      intro m hm
      simp at hm
    rcases (backtrack_sound_all t tol 1000 ml sf).1 _ _ _ hanc q1 h1 with
      hm | ⟨ha1, _⟩
    · simp at hm
    rcases (backtrack_sound_all t tol 1000 ml sf).1 _ _ _ hanc q2 h2 with
      hm | ⟨_, hmin2⟩
    · simp at hm
    rcases Nat.lt_or_ge n q2.length with hn | hn
    · have hfalse := hmin2 n hn
      rw [← hpre, ha1] at hfalse
      exact absurd hfalse (by simp)
    · rw [hpre, List.take_of_length_le hn]

/-- C10 (witness). -/
theorem C10_no_extension_witness :
    (CACHE0.get (F.fin 5) (F.fin (1 / 10))).1 = none ∧
      ([F.fin 5] : List F) = [F.fin 5] :=
  ⟨rfl,
    C10_no_extension CACHE0 [F.fin 5] (F.fin 5) (F.fin (1 / 10)) false 5 false
      [[F.fin 5]] ⟨[((some (500, false), some (10, false)), [[F.fin 5]])], 1000000⟩
      rfl eval_single_five [F.fin 5] [F.fin 5] (by simp) (by simp) 1 (by simp)⟩

end Sum3
